import Mathlib

/-!
Verification of the MCTS chess engine (`src/engine/mod.rs`) and the UCI move
parser (`src/game/mod.rs`).

The rules engine (`chess` crate: `Board`, `MoveGen`, `BoardStatus`, ...) is an
external dependency of the repository; following the specification's §6 it is
modelled as an abstract `GameRules` interface with the operations the engine
actually calls (`MoveGen::new_legal`, `make_move_new`, `side_to_move`,
`status`).  The `f32` arithmetic of the engine is modelled by an abstract
linearly ordered value type `V` together with a record `FloatOps` of the
floating-point operations the source uses; the search-tree claims hold for
every interpretation and the UCT-formula claim is settled at the extended-real
interpretation.  The thread-local random number generator is modelled as an
injected tape of natural numbers (`Rng`), matching the specification's
"determinism with injected randomness" property.
-/

namespace MctsChess

/-- Outcome of a Rust function call that may panic: either the call aborts
(an index/slice panic) or it returns a value. -/
inductive RunResult (α : Type) where
  | halted : RunResult α
  | value : α → RunResult α
  deriving DecidableEq, Repr

/-- Embedding of `chess::BoardStatus`. -/
inductive BoardStatus where
  | Ongoing
  | Checkmate
  | Stalemate
  deriving DecidableEq, Repr

/-- Embedding of `chess::Color`. -/
inductive Color where
  | White
  | Black
  deriving DecidableEq, Repr

/-- Embedding of `impl Not for chess::Color` (the `!color` used for the playout winner). -/
def Color.invert : Color → Color
  | .White => .Black
  | .Black => .White

/-- The Position Adapter interface of spec §6: exactly the operations of the
external `chess` crate that the engine calls. -/
structure GameRules (Pos Move : Type) where
  legal_moves : Pos → List Move
  make_move_new : Pos → Move → Pos
  side_to_move : Pos → Color
  status : Pos → BoardStatus

/-- Facts about the external rules engine that the search code relies on:
a terminal (checkmate or stalemate) position has no legal moves, a position
with a legal move is `Ongoing`, and `MoveGen` yields each legal move once. -/
structure LawfulGameRules {Pos Move : Type} (G : GameRules Pos Move) : Prop where
  moves_of_terminal : ∀ p, G.status p ≠ BoardStatus.Ongoing → G.legal_moves p = []
  ongoing_of_moves : ∀ p, G.legal_moves p ≠ [] → G.status p = BoardStatus.Ongoing
  moves_nodup : ∀ p, (G.legal_moves p).Nodup

/-- The injected source of randomness: a tape of draws.  `rand::thread_rng`
with `shuffle` followed by taking the first element is modelled as drawing
one tape entry and reducing it modulo the number of legal moves. -/
abbrev Rng : Type := List Nat

/-- Draw the next raw value from the tape (0 once the tape is exhausted). -/
def rng_next : Rng → Nat × Rng
  | [] => (0, [])
  | x :: r => (x, r)

/-- The `f32` operations used by the engine, over an abstract linearly
ordered carrier.  `inf` models `f32::INFINITY`, `neg_inf` models
`f32::NEG_INFINITY`, `sqrt2` models `std::f32::consts::SQRT_2`. -/
structure FloatOps (V : Type) where
  zero : V
  one : V
  negOne : V
  inf : V
  neg_inf : V
  sqrt2 : V
  add : V → V → V
  mul : V → V → V
  div : V → V → V
  ln : V → V
  sqrt : V → V
  ofNat : Nat → V

/-- The modulus of the engine's 32-bit visit counter: `visits` is a `u32`,
so `node.visits += 1` wraps around at `2 ^ 32` (release-build semantics). -/
def u32_mod : Nat := 2 ^ 32

theorem u32_mod_pos : 0 < u32_mod := by norm_num [u32_mod]

section Engine

variable {Pos Move V : Type}

/-- Embedding of `struct Node` of `src/engine/mod.rs` (the `u32` visit counter is modelled
as `Nat`; the `HashMap<ChessMove, Box<Node>>` as an association list in
insertion order; the `Vec<ChessMove>` of unexpanded moves keeps the source's
order so that `Vec::pop` removes the last element). -/
inductive Node (Pos Move V : Type) : Type where
  | mk (board : Pos) (visits : Nat) (value_sum : V)
       (children : List (Move × Node Pos Move V))
       (unexpanded_moves : List Move)
       (is_terminal : Bool) : Node Pos Move V

/-- Field `board`. -/
def Node.board : Node Pos Move V → Pos
  | .mk b _ _ _ _ _ => b

/-- Field `visits`. -/
def Node.visits : Node Pos Move V → Nat
  | .mk _ v _ _ _ _ => v

/-- Field `value_sum`. -/
def Node.value_sum : Node Pos Move V → V
  | .mk _ _ vs _ _ _ => vs

/-- Field `children`. -/
def Node.children : Node Pos Move V → List (Move × Node Pos Move V)
  | .mk _ _ _ ch _ _ => ch

/-- Field `unexpanded_moves`. -/
def Node.unexpanded_moves : Node Pos Move V → List Move
  | .mk _ _ _ _ un _ => un

/-- Field `is_terminal`. -/
def Node.is_terminal : Node Pos Move V → Bool
  | .mk _ _ _ _ _ t => t

@[simp] theorem Node.board_mk (b : Pos) (v : Nat) (vs : V) ch un t :
    (Node.mk b v vs ch un t : Node Pos Move V).board = b := rfl

@[simp] theorem Node.visits_mk (b : Pos) (v : Nat) (vs : V) ch un t :
    (Node.mk b v vs ch un t : Node Pos Move V).visits = v := rfl

@[simp] theorem Node.value_sum_mk (b : Pos) (v : Nat) (vs : V) ch un t :
    (Node.mk b v vs ch un t : Node Pos Move V).value_sum = vs := rfl

@[simp] theorem Node.children_mk (b : Pos) (v : Nat) (vs : V) ch un t :
    (Node.mk b v vs ch un t : Node Pos Move V).children = ch := rfl

@[simp] theorem Node.unexpanded_moves_mk (b : Pos) (v : Nat) (vs : V) ch un t :
    (Node.mk b v vs ch un t : Node Pos Move V).unexpanded_moves = un := rfl

@[simp] theorem Node.is_terminal_mk (b : Pos) (v : Nat) (vs : V) ch un t :
    (Node.mk b v vs ch un t : Node Pos Move V).is_terminal = t := rfl

/-- Embedding of `Node::new` (`src/engine/mod.rs` lines 157-174): compute the terminal
flag from the board status, collect the legal moves as the unexpanded list of
a non-terminal node, start with zero visits and zero value sum. -/
def Node.new (G : GameRules Pos Move) (F : FloatOps V) (board : Pos) :
    Node Pos Move V :=
  let is_term : Bool :=
    match G.status board with
    | .Ongoing => false
    | _ => true
  Node.mk board 0 F.zero []
    (if is_term then [] else G.legal_moves board) is_term

/-- One backpropagation touch of a node (`node.visits += 1;
node.value_sum += sim_result;`, lines 104-105).  The `u32` increment wraps
at `2 ^ 32`. -/
def Node.record (F : FloatOps V) (res : V) : Node Pos Move V → Node Pos Move V
  | .mk b v vs ch un t => .mk b ((v + 1) % u32_mod) (F.add vs res) ch un t

/-- Replace the `children` field. -/
def Node.with_children : Node Pos Move V → List (Move × Node Pos Move V) →
    Node Pos Move V
  | .mk b v vs _ un t, ch => .mk b v vs ch un t

/-- Replace the `unexpanded_moves` field. -/
def Node.with_unexpanded : Node Pos Move V → List Move → Node Pos Move V
  | .mk b v vs ch _ t, un => .mk b v vs ch un t

@[simp] theorem Node.record_mk (F : FloatOps V) (res : V) (b : Pos) v (vs : V)
    (ch : List (Move × Node Pos Move V)) un t :
    (Node.mk b v vs ch un t).record F res =
      Node.mk b ((v + 1) % u32_mod) (F.add vs res) ch un t := rfl

@[simp] theorem Node.with_children_mk (b : Pos) v (vs : V)
    (ch ch' : List (Move × Node Pos Move V)) un t :
    (Node.mk b v vs ch un t).with_children ch' = Node.mk b v vs ch' un t := rfl

@[simp] theorem Node.with_unexpanded_mk (b : Pos) v (vs : V)
    (ch : List (Move × Node Pos Move V)) un un' t :
    (Node.mk b v vs ch un t).with_unexpanded un' = Node.mk b v vs ch un' t := rfl

/-- Embedding of `Node::uct_value` (`src/engine/mod.rs` lines 176-183). -/
def Node.uct_value (F : FloatOps V) (n : Node Pos Move V) (parent_visits : V) : V :=
  if n.visits = 0 then F.inf
  else
    F.add (F.div n.value_sum (F.ofNat n.visits))
      (F.mul F.sqrt2 (F.sqrt (F.div (F.ln parent_visits) (F.ofNat n.visits))))

/-- The parent-visit argument of the selection phase
(`let parent_visits = node.visits.max(1) as f32;`, line 52). -/
def selection_parent_visits (F : FloatOps V) (n : Node Pos Move V) : V :=
  F.ofNat (max n.visits 1)

/-- Embedding of `fn simulate_random_default`, inner loop (`src/engine/mod.rs` lines
129-144): at each of the at most `max_depth` iterations, inspect the status;
an ongoing position plays one uniformly drawn legal move, checkmate scores
±1 against the side to move at the start of the playout, stalemate scores 0,
and falling out of the loop scores 0. -/
def simulate_go (G : GameRules Pos Move) (F : FloatOps V) (start_side : Color) :
    Pos → Nat → Rng → V × Rng
  | _, 0, rng => (F.zero, rng)
  | b, d + 1, rng =>
    match G.status b with
    | .Ongoing =>
      match G.legal_moves b with
      | [] => (F.zero, rng)
      | m :: ms =>
        let draw := rng_next rng
        let mv := (m :: ms).get ⟨draw.1 % (m :: ms).length, Nat.mod_lt _ (Nat.succ_pos _)⟩
        simulate_go G F start_side (G.make_move_new b mv) d draw.2
    | .Checkmate =>
      (if (G.side_to_move b).invert = start_side then F.one else F.negOne, rng)
    | .Stalemate => (F.zero, rng)

/-- Embedding of `fn simulate_random_default` (`src/engine/mod.rs` lines 125-145). -/
def simulate_random_default (G : GameRules Pos Move) (F : FloatOps V)
    (start : Pos) (max_depth : Nat) (rng : Rng) : V × Rng :=
  simulate_go G F (G.side_to_move start) start max_depth rng

/-- Embedding of `Vec::pop`: remove and return the last element. -/
def vec_pop {α : Type} : List α → Option (α × List α)
  | [] => none
  | x :: xs =>
    match vec_pop xs with
    | none => some (x, [])
    | some p => some (p.1, x :: p.2)

/-- The best-UCT scan of the selection phase (`src/engine/mod.rs` lines
53-61): fold over the children keeping the key of the first child whose UCT
value strictly exceeds the running best score (initially
`f32::NEG_INFINITY` with no key). -/
def best_uct_fold [LinearOrder V] (F : FloatOps V) (parent_visits : V) :
    List (Move × Node Pos Move V) → Option Move → V → Option Move
  | [], best_key, _ => best_key
  | (mv, child) :: rest, best_key, best_score =>
    let u := child.uct_value F parent_visits
    if best_score < u then best_uct_fold F parent_visits rest (some mv) u
    else best_uct_fold F parent_visits rest best_key best_score

/-- The key selected by the UCT scan, if any. -/
def best_uct_key [LinearOrder V] (F : FloatOps V) (parent_visits : V)
    (children : List (Move × Node Pos Move V)) : Option Move :=
  best_uct_fold F parent_visits children none F.neg_inf

/-- Embedding of `node.children.get_mut(&mv)`: look up a child by its move key. -/
def find_child [DecidableEq Move] (children : List (Move × Node Pos Move V))
    (mv : Move) : Option (Move × Node Pos Move V) :=
  children.find? (fun p => decide (p.1 = mv))

/-- Writing back the mutated child: replace the entry with key `mv` (the
first occurrence, as in the key-unique `HashMap`). -/
def replace_child [DecidableEq Move] :
    List (Move × Node Pos Move V) → Move → Node Pos Move V →
    List (Move × Node Pos Move V)
  | [], _, _ => []
  | p :: rest, mv, c => if p.1 = mv then (mv, c) :: rest else p :: replace_child rest mv c

theorem find_child_mem [DecidableEq Move] {children : List (Move × Node Pos Move V)}
    {mv : Move} {mc : Move × Node Pos Move V}
    (h : find_child children mv = some mc) : mc ∈ children :=
  List.mem_of_find?_eq_some h

/-- A member of the children list is structurally smaller than the node. -/
theorem Node.sizeOf_child_lt (n : Node Pos Move V)
    (mc : Move × Node Pos Move V) (h : mc ∈ n.children) :
    sizeOf mc.2 < sizeOf n := by
  cases n with
  | mk b v vs ch un t =>
    simp only [Node.children_mk] at h
    have h1 := List.sizeOf_lt_of_mem h
    cases mc with
    | mk m c =>
      simp only [Prod.mk.sizeOf_spec] at h1
      simp only [Node.mk.sizeOf_spec]
      omega

/-- One iteration of the MCTS loop body (`src/engine/mod.rs` lines 39-107),
expressed as the spec §9 recursive-ownership rewrite of the raw-pointer
walk.  Selection: a terminal node, a node with unexpanded moves, a node with
no children, or a node whose UCT scan yields no key stops the descent;
otherwise descend into the child with the highest UCT value.  Expansion:
pop the last unexpanded move, apply it, insert the fresh child.  Simulation:
a random playout of depth 96 from the tip.  Backpropagation: `+1` visit and
`+result` value for every node on the selection path, applied here on the
way back up the recursion.  Returns the updated node, the playout result,
and the advanced random tape.  (The `none` case of `find_child` mirrors the
`.unwrap()` on a key that was just produced from the same map; it is
unreachable and modelled as stopping the descent.) -/
def search_iteration [DecidableEq Move] [LinearOrder V] (G : GameRules Pos Move)
    (F : FloatOps V) (node : Node Pos Move V) (rng : Rng) :
    Node Pos Move V × V × Rng :=
  if node.is_terminal then
    let sr := simulate_random_default G F node.board 96 rng
    (node.record F sr.1, sr.1, sr.2)
  else if node.unexpanded_moves.isEmpty && !node.children.isEmpty then
    match best_uct_key F (selection_parent_visits F node) node.children with
    | some mv =>
      match hfc : find_child node.children mv with
      | some mc =>
        let r := search_iteration G F mc.2 rng
        ((node.with_children (replace_child node.children mv r.1)).record F r.2.1, r.2)
      | none =>
        let sr := simulate_random_default G F node.board 96 rng
        (node.record F sr.1, sr.1, sr.2)
    | none =>
      let sr := simulate_random_default G F node.board 96 rng
      (node.record F sr.1, sr.1, sr.2)
  else
    match vec_pop node.unexpanded_moves with
    | some mr =>
      let child := Node.new G F (G.make_move_new node.board mr.1)
      let sr := simulate_random_default G F child.board 96 rng
      (((node.with_unexpanded mr.2).with_children
          (node.children ++ [(mr.1, child.record F sr.1)])).record F sr.1, sr.1, sr.2)
    | none =>
      let sr := simulate_random_default G F node.board 96 rng
      (node.record F sr.1, sr.1, sr.2)
termination_by sizeOf node
decreasing_by
  exact Node.sizeOf_child_lt node mc (find_child_mem hfc)

/-- The simulation loop (`for _ in 0..simulations`, lines 39-108): run the
given number of iterations, threading the tree and the random tape. -/
def run_search [DecidableEq Move] [LinearOrder V] (G : GameRules Pos Move)
    (F : FloatOps V) : Nat → Node Pos Move V → Rng → Node Pos Move V × Rng
  | 0, node, rng => (node, rng)
  | n + 1, node, rng =>
    let r := search_iteration G F node rng
    run_search G F n r.1 r.2.2

/-- The most-visited-child scan (`src/engine/mod.rs` lines 114-120): keep
the current best `(move, visits)` pair unless the next child's visit count
is strictly greater. -/
def best_visits_fold :
    List (Move × Node Pos Move V) → Option (Move × Nat) → Option (Move × Nat)
  | [], best => best
  | (mv, child) :: rest, best =>
    match best with
    | some bp =>
      if child.visits ≤ bp.2 then best_visits_fold rest (some bp)
      else best_visits_fold rest (some (mv, child.visits))
    | none => best_visits_fold rest (some (mv, child.visits))

/-- The move finally chosen from the root's children (line 121). -/
def best_visits_key (children : List (Move × Node Pos Move V)) : Option Move :=
  (best_visits_fold children none).map Prod.fst

/-- Embedding of `struct MctsConfig`. -/
structure MctsConfig where
  simulations : Nat

/-- Embedding of `impl Default for MctsConfig`. -/
def MctsConfig.default : MctsConfig := ⟨1000⟩

/-- Embedding of `MctsEngine::choose_move` (`src/engine/mod.rs` lines 29-122): return no
move on an empty legal-move list; short-circuit a single legal move; else
build a fresh root, run `max(simulations, 1)` iterations, and return the
first most-visited root child's move, falling back to the first legal move
when the root has no children. -/
def choose_move [DecidableEq Move] [LinearOrder V] (G : GameRules Pos Move)
    (F : FloatOps V) (config : MctsConfig) (state : Pos) (rng : Rng) :
    Option Move :=
  let legal := G.legal_moves state
  if legal.isEmpty then none
  else if legal.length = 1 then legal.head?
  else
    let root := Node.new G F state
    let simulations := max config.simulations 1
    let sr := run_search G F simulations root rng
    if sr.1.children.isEmpty then legal.head?
    else best_visits_key sr.1.children

/-- The shape of one completed iteration, seen from a node on the selection
path.  `PathUpdate G F res old new` holds when `new` arises from `old` by
incrementing `visits` by exactly 1 and adding the same signed playout result
`res` to `value_sum`, and below this node either nothing changes (`tip`),
or exactly the selected child is updated the same way while every sibling,
the board, the unexpanded list and the terminal flag stay untouched
(`descend`), or the last unexpanded move is materialized as a fresh child
that also receives the `+1 / +res` touch (`expand`). -/
inductive PathUpdate (G : GameRules Pos Move) (F : FloatOps V) (res : V) :
    Node Pos Move V → Node Pos Move V → Prop where
  | tip (b : Pos) (v : Nat) (vs : V) (ch : List (Move × Node Pos Move V))
      (un : List Move) (t : Bool) :
      PathUpdate G F res (.mk b v vs ch un t)
        (.mk b ((v + 1) % u32_mod) (F.add vs res) ch un t)
  | descend (b : Pos) (v : Nat) (vs : V) (un : List Move) (t : Bool)
      (pre : List (Move × Node Pos Move V)) (mv : Move) (c c' : Node Pos Move V)
      (post : List (Move × Node Pos Move V)) :
      (∀ q ∈ pre, q.1 ≠ mv) →
      PathUpdate G F res c c' →
      PathUpdate G F res (.mk b v vs (pre ++ (mv, c) :: post) un t)
        (.mk b ((v + 1) % u32_mod) (F.add vs res) (pre ++ (mv, c') :: post) un t)
  | expand (b : Pos) (v : Nat) (vs : V) (ch : List (Move × Node Pos Move V))
      (un : List Move) (mv : Move) (t : Bool) :
      PathUpdate G F res (.mk b v vs ch (un ++ [mv]) t)
        (.mk b ((v + 1) % u32_mod) (F.add vs res)
          (ch ++ [(mv, (Node.new G F (G.make_move_new b mv)).record F res)]) un t)

theorem vec_pop_spec {α : Type} (l : List α) :
    (l = [] ∧ vec_pop l = none) ∨
    (∃ x rest, l = rest ++ [x] ∧ vec_pop l = some (x, rest)) := by
  induction l with
  | nil => exact Or.inl ⟨rfl, rfl⟩
  | cons a as ih =>
    right
    rcases ih with ⟨h1, h2⟩ | ⟨x, rest, h1, h2⟩
    · subst h1
      exact ⟨a, [], rfl, by simp [vec_pop]⟩
    · exact ⟨x, a :: rest, by rw [h1]; rfl, by simp [vec_pop, h2]⟩

theorem vec_pop_eq_some {α : Type} {l : List α} {p : α × List α}
    (h : vec_pop l = some p) : l = p.2 ++ [p.1] := by
  rcases vec_pop_spec l with ⟨_, h2⟩ | ⟨x, rest, h1, h2⟩
  · rw [h2] at h; cases h
  · rw [h2] at h
    cases h
    exact h1

theorem find_child_split [DecidableEq Move] {Pos V : Type} :
    ∀ (ch : List (Move × Node Pos Move V)) (mv : Move) (mc : Move × Node Pos Move V),
    find_child ch mv = some mc →
    mc.1 = mv ∧ ∃ pre post, ch = pre ++ mc :: post ∧ (∀ q ∈ pre, q.1 ≠ mv) ∧
      ∀ c, replace_child ch mv c = pre ++ (mv, c) :: post := by
  intro ch mv
  induction ch with
  | nil => intro mc h; simp [find_child] at h
  | cons p rest ih =>
    intro mc h
    by_cases hp : p.1 = mv
    · have hmc : mc = p := by
        simp only [find_child, List.find?_cons, decide_eq_true hp] at h
        exact (Option.some_inj.mp h).symm
      subst hmc
      refine ⟨hp, [], rest, by simp, by simp, fun c => ?_⟩
      simp [replace_child, hp]
    · have h' : find_child rest mv = some mc := by
        simpa only [find_child, List.find?_cons, decide_eq_false hp] using h
      obtain ⟨h1, pre, post, h2, h3, h4⟩ := ih mc h'
      refine ⟨h1, p :: pre, post, by rw [h2]; rfl, ?_, fun c => ?_⟩
      · intro q hq
        rcases List.mem_cons.mp hq with rfl | hq
        · exact hp
        · exact h3 q hq
      · simp [replace_child, hp, h4 c]

/-- Every iteration of the search loop performs one `PathUpdate`: the
playout result is propagated unchanged (same sign at every ply), each node
on the selection path gains exactly one visit, and no node off the path is
modified. -/
theorem search_iteration_path [DecidableEq Move] [LinearOrder V]
    (G : GameRules Pos Move) (F : FloatOps V) (node : Node Pos Move V) (rng : Rng) :
    PathUpdate G F (search_iteration G F node rng).2.1 node
      (search_iteration G F node rng).1 := by
  suffices h : ∀ (k : Nat) (node : Node Pos Move V) (rng : Rng), sizeOf node ≤ k →
      PathUpdate G F (search_iteration G F node rng).2.1 node
        (search_iteration G F node rng).1 from h (sizeOf node) node rng le_rfl
  intro k
  induction k with
  | zero =>
    intro node rng hk
    exfalso
    cases node
    simp only [Node.mk.sizeOf_spec] at hk
    omega
  | succ k ih =>
    intro node rng hk
    obtain ⟨b, v, vs, ch, un, t⟩ := node
    rw [search_iteration.eq_def]
    simp only [Node.is_terminal_mk, Node.unexpanded_moves_mk, Node.children_mk,
      Node.board_mk, Node.record_mk, Node.with_children_mk, Node.with_unexpanded_mk]
    split
    · exact PathUpdate.tip b v vs ch un t
    · split
      · split
        · rename_i mv hbk
          split
          · rename_i mc hfc
            obtain ⟨hmv, pre, post, hch, hpre, hrep⟩ := find_child_split ch mv mc hfc
            have hmem : mc ∈ (Node.mk b v vs ch un t : Node Pos Move V).children := by
              simp only [Node.children_mk]
              exact find_child_mem hfc
            have hlt := Node.sizeOf_child_lt _ mc hmem
            have hrec := ih mc.2 rng (by omega)
            obtain ⟨m1, c2⟩ := mc
            simp only at hmv hrec
            subst hmv
            simp only
            rw [hrep, hch]
            exact PathUpdate.descend b v vs un t pre m1 c2 _ post hpre hrec
          · exact PathUpdate.tip b v vs ch un t
        · exact PathUpdate.tip b v vs ch un t
      · split
        · rename_i mr hpop
          have hun : un = mr.2 ++ [mr.1] := vec_pop_eq_some hpop
          rw [hun]
          exact PathUpdate.expand b v vs ch mr.2 mr.1 t
        · exact PathUpdate.tip b v vs ch un t

theorem Node.new_ongoing (G : GameRules Pos Move) (F : FloatOps V) (p : Pos)
    (h : G.status p = BoardStatus.Ongoing) :
    (Node.new G F p : Node Pos Move V) =
      Node.mk p 0 F.zero [] (G.legal_moves p) false := by
  simp [Node.new, h]

theorem Node.new_terminal (G : GameRules Pos Move) (F : FloatOps V) (p : Pos)
    (h : G.status p ≠ BoardStatus.Ongoing) :
    (Node.new G F p : Node Pos Move V) = Node.mk p 0 F.zero [] [] true := by
  cases hs : G.status p with
  | Ongoing => exact absurd hs h
  | Checkmate => simp [Node.new, hs]
  | Stalemate => simp [Node.new, hs]

theorem PathUpdate.visits_eq {G : GameRules Pos Move} {F : FloatOps V} {res : V}
    {n n' : Node Pos Move V} (h : PathUpdate G F res n n') :
    n'.visits = (n.visits + 1) % u32_mod := by
  cases h <;> simp

theorem PathUpdate.board_eq {G : GameRules Pos Move} {F : FloatOps V} {res : V}
    {n n' : Node Pos Move V} (h : PathUpdate G F res n n') :
    n'.board = n.board := by
  cases h <;> simp

theorem PathUpdate.value_sum_eq {G : GameRules Pos Move} {F : FloatOps V} {res : V}
    {n n' : Node Pos Move V} (h : PathUpdate G F res n n') :
    n'.value_sum = F.add n.value_sum res := by
  cases h <;> simp

theorem PathUpdate.children_ne_nil {G : GameRules Pos Move} {F : FloatOps V} {res : V}
    {n n' : Node Pos Move V} (h : PathUpdate G F res n n')
    (hch : n.children ≠ []) : n'.children ≠ [] := by
  cases h with
  | tip => simpa using hch
  | descend => simp
  | expand => simp

theorem search_iteration_visits [DecidableEq Move] [LinearOrder V]
    (G : GameRules Pos Move) (F : FloatOps V) (n : Node Pos Move V) (rng : Rng) :
    (search_iteration G F n rng).1.visits = (n.visits + 1) % u32_mod :=
  (search_iteration_path G F n rng).visits_eq

theorem run_search_visits [DecidableEq Move] [LinearOrder V]
    (G : GameRules Pos Move) (F : FloatOps V) (k : Nat) :
    ∀ (n : Node Pos Move V) (rng : Rng), n.visits < u32_mod →
    (run_search G F k n rng).1.visits = (n.visits + k) % u32_mod := by
  induction k with
  | zero =>
    intro n rng hv
    show n.visits = (n.visits + 0) % u32_mod
    rw [Nat.add_zero, Nat.mod_eq_of_lt hv]
  | succ k ih =>
    intro n rng hv
    have hlt : (search_iteration G F n rng).1.visits < u32_mod := by
      rw [search_iteration_visits]
      exact Nat.mod_lt _ u32_mod_pos
    show (run_search G F k (search_iteration G F n rng).1 _).1.visits = _
    rw [ih _ _ hlt, search_iteration_visits, Nat.mod_add_mod]
    congr 1
    omega

/-- A fresh non-terminal node immediately gains a child: the first iteration
from such a node takes the expansion branch. -/
theorem search_iteration_expands [DecidableEq Move] [LinearOrder V]
    (G : GameRules Pos Move) (F : FloatOps V) (n : Node Pos Move V) (rng : Rng)
    (ht : n.is_terminal = false) (hu : n.unexpanded_moves ≠ []) :
    (search_iteration G F n rng).1.children ≠ [] := by
  obtain ⟨b, v, vs, ch, un, t⟩ := n
  simp only [Node.is_terminal_mk] at ht
  simp only [Node.unexpanded_moves_mk] at hu
  subst ht
  have hie : un.isEmpty = false := by
    cases un with
    | nil => exact absurd rfl hu
    | cons a as => rfl
  rw [search_iteration.eq_def]
  simp only [Node.is_terminal_mk, Node.unexpanded_moves_mk, Node.children_mk,
    Node.board_mk, Node.record_mk, Node.with_children_mk, Node.with_unexpanded_mk,
    hie, Bool.false_and, if_false]
  rcases vec_pop_spec un with ⟨h1, _⟩ | ⟨x, rest, _, h2⟩
  · exact absurd h1 hu
  · rw [h2]
    simp

theorem run_search_children_ne_nil [DecidableEq Move] [LinearOrder V]
    (G : GameRules Pos Move) (F : FloatOps V) (k : Nat) :
    ∀ (n : Node Pos Move V) (rng : Rng), n.children ≠ [] →
    (run_search G F k n rng).1.children ≠ [] := by
  induction k with
  | zero => intro n rng h; exact h
  | succ k ih =>
    intro n rng h
    exact ih _ _ ((search_iteration_path G F n rng).children_ne_nil h)

/-- The per-node tree invariant of spec §3, claim C8: the terminal flag
mirrors the position's status, a terminal node has no unexpanded moves and
no children, the unexpanded moves and the children's keys partition the
legal-move set, both are duplicate-free, and the same holds in every
subtree. -/
inductive TreeInv (G : GameRules Pos Move) : Node Pos Move V → Prop where
  | intro (b : Pos) (v : Nat) (vs : V) (ch : List (Move × Node Pos Move V))
      (un : List Move) (t : Bool) :
      (t = true ↔ G.status b ≠ BoardStatus.Ongoing) →
      (t = true → un = [] ∧ ch = []) →
      (∀ m, (m ∈ un ∨ m ∈ ch.map Prod.fst) ↔ m ∈ G.legal_moves b) →
      (∀ m ∈ un, m ∉ ch.map Prod.fst) →
      un.Nodup →
      (ch.map Prod.fst).Nodup →
      (∀ mc ∈ ch, TreeInv G mc.2) →
      TreeInv G (.mk b v vs ch un t)

theorem treeInv_record {G : GameRules Pos Move} (F : FloatOps V) (res : V)
    {n : Node Pos Move V} (h : TreeInv G n) : TreeInv G (n.record F res) := by
  cases h with
  | intro b v vs ch un t h1 h2 h3 h4 h5 h6 h7 =>
    exact TreeInv.intro b _ _ ch un t h1 h2 h3 h4 h5 h6 h7

theorem treeInv_new {G : GameRules Pos Move} (F : FloatOps V)
    (hL : LawfulGameRules G) (p : Pos) :
    TreeInv G (Node.new G F p : Node Pos Move V) := by
  by_cases hs : G.status p = BoardStatus.Ongoing
  · rw [Node.new_ongoing G F p hs]
    refine TreeInv.intro p 0 F.zero [] (G.legal_moves p) false ?_ ?_ ?_ ?_ ?_ ?_ ?_
    · simp [hs]
    · simp
    · simp
    · simp
    · exact hL.moves_nodup p
    · simp
    · simp
  · rw [Node.new_terminal G F p hs]
    refine TreeInv.intro p 0 F.zero [] [] true ?_ ?_ ?_ ?_ ?_ ?_ ?_
    · simp [hs]
    · simp
    · simp [hL.moves_of_terminal p hs]
    · simp
    · simp
    · simp
    · simp

theorem treeInv_path {G : GameRules Pos Move} {F : FloatOps V} {res : V}
    (hL : LawfulGameRules G) {n n' : Node Pos Move V}
    (h : PathUpdate G F res n n') (hInv : TreeInv G n) : TreeInv G n' := by
  induction h with
  | tip b v vs ch un t =>
    exact treeInv_record F res hInv
  | descend b v vs un t pre mv c c' post hpre hcc ih =>
    cases hInv with
    | intro _ _ _ _ _ _ h1 h2 h3 h4 h5 h6 h7 =>
      have hkeys : (pre ++ (mv, c') :: post).map Prod.fst =
          (pre ++ (mv, c) :: post).map Prod.fst := by simp
      refine TreeInv.intro b _ _ _ un t h1 ?_ ?_ ?_ h5 ?_ ?_
      · intro ht
        obtain ⟨hu, hc⟩ := h2 ht
        exact absurd hc (by simp)
      · intro m
        rw [hkeys]
        exact h3 m
      · intro m hm
        rw [hkeys]
        exact h4 m hm
      · rw [hkeys]
        exact h6
      · intro mc hmc
        rcases List.mem_append.mp hmc with hmc | hmc
        · exact h7 mc (List.mem_append.mpr (Or.inl hmc))
        · rcases List.mem_cons.mp hmc with rfl | hmc
          · exact ih (h7 (mv, c) (by simp))
          · exact h7 mc (by simp [hmc])
  | expand b v vs ch un mv t =>
    cases hInv with
    | intro _ _ _ _ _ _ h1 h2 h3 h4 h5 h6 h7 =>
      have hmv_un : mv ∈ un ++ [mv] := by simp
      have htf : t = false := by
        cases t with
        | false => rfl
        | true => exact absurd (h2 rfl).1 (by simp)
      subst htf
      have hmv_not : mv ∉ ch.map Prod.fst := h4 mv hmv_un
      have hun_nodup : un.Nodup := (List.nodup_append.mp h5).1
      have hmv_not_un : mv ∉ un := by
        intro hmem
        have := List.nodup_append.mp h5
        exact (this.2.2 hmem) (by simp)
      refine TreeInv.intro b _ _ _ un false (by simp [h1]) (by simp)
        ?_ ?_ hun_nodup ?_ ?_
      · intro m
        have := h3 m
        simp only [List.mem_append, List.mem_singleton, List.map_append,
          List.map_cons, List.map_nil] at this ⊢
        constructor
        · intro hcase
          apply this.mp
          rcases hcase with hm | hm | rfl
          · exact Or.inl (Or.inl hm)
          · exact Or.inr hm
          · exact Or.inl (Or.inr rfl)
        · intro hm
          rcases this.mpr hm with (hm' | rfl) | hm'
          · exact Or.inl hm'
          · exact Or.inr (Or.inr rfl)
          · exact Or.inr (Or.inl hm')
      · intro m hm
        have hdis := h4 m (List.mem_append.mpr (Or.inl hm))
        simp only [List.map_append, List.map_cons, List.map_nil, List.mem_append,
          List.mem_singleton]
        rintro (hm' | rfl)
        · exact hdis hm'
        · exact hmv_not_un hm
      · simp only [List.map_append, List.map_cons, List.map_nil]
        rw [List.nodup_append]
        exact ⟨h6, List.nodup_singleton mv, by
          intro a ha
          simp only [List.mem_singleton]
          intro hEq
          subst hEq
          exact hmv_not ha⟩
      · intro mc hmc
        rcases List.mem_append.mp hmc with hmc | hmc
        · exact h7 mc hmc
        · rcases List.mem_singleton.mp hmc with rfl
          exact treeInv_record F res (treeInv_new F hL _)

theorem run_search_treeInv [DecidableEq Move] [LinearOrder V]
    {G : GameRules Pos Move} {F : FloatOps V} (hL : LawfulGameRules G) (k : Nat) :
    ∀ (n : Node Pos Move V) (rng : Rng), TreeInv G n →
    TreeInv G (run_search G F k n rng).1 := by
  induction k with
  | zero => intro n rng h; exact h
  | succ k ih =>
    intro n rng h
    exact ih _ _ (treeInv_path hL (search_iteration_path G F n rng) h)

/-- The visit-accounting invariant of claim C9: each node's visit count
dominates the sum of its children's visit counts, recursively. -/
inductive VisitInv : Node Pos Move V → Prop where
  | intro (b : Pos) (v : Nat) (vs : V) (ch : List (Move × Node Pos Move V))
      (un : List Move) (t : Bool) :
      (ch.map (fun mc => mc.2.visits)).sum ≤ v →
      (∀ mc ∈ ch, VisitInv mc.2) →
      VisitInv (.mk b v vs ch un t)

/-- The visit-accounting invariant strengthened with an upper bound `m` on
every visit counter of the tree: as long as `m + 1` stays below the `u32`
wrap-around threshold, one more backpropagation touch cannot wrap any
counter, so the sum bound survives the iteration. -/
inductive VisitInvLe (m : Nat) : Node Pos Move V → Prop where
  | intro (b : Pos) (v : Nat) (vs : V) (ch : List (Move × Node Pos Move V))
      (un : List Move) (t : Bool) :
      (ch.map (fun mc => mc.2.visits)).sum ≤ v →
      v ≤ m →
      (∀ mc ∈ ch, VisitInvLe m mc.2) →
      VisitInvLe m (.mk b v vs ch un t)

theorem VisitInvLe.visits_le {m : Nat} {n : Node Pos Move V}
    (h : VisitInvLe m n) : n.visits ≤ m := by
  cases h with
  | intro b v vs ch un t h1 h2 h3 => simpa using h2

theorem VisitInvLe.mono {m m' : Nat} (hm : m ≤ m') {n : Node Pos Move V}
    (h : VisitInvLe m n) : VisitInvLe m' n := by
  induction h with
  | intro b v vs ch un t h1 h2 h3 ih =>
    exact VisitInvLe.intro b v vs ch un t h1 (le_trans h2 hm) ih

theorem VisitInvLe.visitInv {m : Nat} {n : Node Pos Move V}
    (h : VisitInvLe m n) : VisitInv n := by
  induction h with
  | intro b v vs ch un t h1 h2 h3 ih => exact VisitInv.intro b v vs ch un t h1 ih

theorem visitInvLe_path {G : GameRules Pos Move} {F : FloatOps V} {res : V}
    {m : Nat} (hm : m + 1 < u32_mod) {n n' : Node Pos Move V}
    (h : PathUpdate G F res n n') (hInv : VisitInvLe m n) :
    VisitInvLe (m + 1) n' := by
  induction h with
  | tip b v vs ch un t =>
    cases hInv with
    | intro _ _ _ _ _ _ h1 h2 h3 =>
      have hv : (v + 1) % u32_mod = v + 1 := Nat.mod_eq_of_lt (by omega)
      rw [hv]
      exact VisitInvLe.intro b (v + 1) _ ch un t (by omega) (by omega)
        (fun mc hmc => (h3 mc hmc).mono (by omega))
  | descend b v vs un t pre mv c c' post hpre hcc ih =>
    cases hInv with
    | intro _ _ _ _ _ _ h1 h2 h3 =>
      have hv : (v + 1) % u32_mod = v + 1 := Nat.mod_eq_of_lt (by omega)
      have hcle : c.visits ≤ m := (h3 (mv, c) (by simp)).visits_le
      have hc' : c'.visits = c.visits + 1 := by
        rw [hcc.visits_eq, Nat.mod_eq_of_lt (by omega)]
      rw [hv]
      refine VisitInvLe.intro b (v + 1) _ _ un t ?_ (by omega) ?_
      · simp only [List.map_append, List.map_cons, List.sum_append, List.sum_cons,
          hc'] at h1 ⊢
        omega
      · intro mc hmc
        rcases List.mem_append.mp hmc with hmc | hmc
        · exact (h3 mc (List.mem_append.mpr (Or.inl hmc))).mono (by omega)
        · rcases List.mem_cons.mp hmc with rfl | hmc
          · exact ih (h3 (mv, c) (by simp))
          · exact (h3 mc (by simp [hmc])).mono (by omega)
  | expand b v vs ch un mv t =>
    cases hInv with
    | intro _ _ _ _ _ _ h1 h2 h3 =>
      have hv : (v + 1) % u32_mod = v + 1 := Nat.mod_eq_of_lt (by omega)
      have hnewv : ((Node.new G F (G.make_move_new b mv)).record F res).visits =
          1 % u32_mod := rfl
      have h1W : (1 : Nat) % u32_mod = 1 :=
        Nat.mod_eq_of_lt (by norm_num [u32_mod])
      rw [hv]
      refine VisitInvLe.intro b (v + 1) _ _ un t ?_ (by omega) ?_
      · simp only [List.map_append, List.map_cons, List.map_nil, List.sum_append,
          List.sum_cons, List.sum_nil, hnewv, h1W]
        omega
      · intro mc hmc
        rcases List.mem_append.mp hmc with hmc | hmc
        · exact (h3 mc hmc).mono (by omega)
        · rcases List.mem_singleton.mp hmc with rfl
          refine VisitInvLe.intro _ (1 % u32_mod) _ [] _ _ ?_ ?_ ?_ <;>
            simp [h1W]

theorem run_search_visitInvLe [DecidableEq Move] [LinearOrder V]
    {G : GameRules Pos Move} {F : FloatOps V} (k : Nat) :
    ∀ (m : Nat) (n : Node Pos Move V) (rng : Rng), VisitInvLe m n →
    m + k < u32_mod → VisitInvLe (m + k) (run_search G F k n rng).1 := by
  induction k with
  | zero => intro m n rng h _; exact h
  | succ k ih =>
    intro m n rng h hk
    have h1 : VisitInvLe (m + 1) (search_iteration G F n rng).1 :=
      visitInvLe_path (by omega) (search_iteration_path G F n rng) h
    have := ih (m + 1) _ (search_iteration G F n rng).2.2 h1 (by omega)
    have harith : m + 1 + k = m + (k + 1) := by omega
    rw [harith] at this
    exact this

theorem visitInvLe_new (G : GameRules Pos Move) (F : FloatOps V) (p : Pos) :
    VisitInvLe 0 (Node.new G F p : Node Pos Move V) := by
  by_cases hs : G.status p = BoardStatus.Ongoing
  · rw [Node.new_ongoing G F p hs]
    refine VisitInvLe.intro _ 0 _ [] _ _ ?_ ?_ ?_ <;> simp
  · rw [Node.new_terminal G F p hs]
    refine VisitInvLe.intro _ 0 _ [] _ _ ?_ ?_ ?_ <;> simp

theorem best_visits_fold_some (l : List (Move × Node Pos Move V)) :
    ∀ (m0 : Move) (v0 : Nat), ∃ m v,
      best_visits_fold l (some (m0, v0)) = some (m, v) ∧ v0 ≤ v ∧
      ((m = m0 ∧ v = v0) ∨ ∃ c, (m, c) ∈ l ∧ c.visits = v) ∧
      ∀ p ∈ l, p.2.visits ≤ v := by
  induction l with
  | nil =>
    intro m0 v0
    exact ⟨m0, v0, rfl, le_rfl, Or.inl ⟨rfl, rfl⟩, by simp⟩
  | cons q rest ih =>
    intro m0 v0
    obtain ⟨mv, child⟩ := q
    by_cases hle : child.visits ≤ v0
    · obtain ⟨m, v, heq, hv0, hor, hall⟩ := ih m0 v0
      refine ⟨m, v, ?_, hv0, ?_, ?_⟩
      · simpa [best_visits_fold, hle] using heq
      · rcases hor with h | ⟨c, hc, hv⟩
        · exact Or.inl h
        · exact Or.inr ⟨c, by simp [hc], hv⟩
      · intro p hp
        rcases List.mem_cons.mp hp with rfl | hp
        · simp only
          omega
        · exact hall p hp
    · obtain ⟨m, v, heq, hv0, hor, hall⟩ := ih mv child.visits
      refine ⟨m, v, ?_, by omega, ?_, ?_⟩
      · simpa [best_visits_fold, hle] using heq
      · rcases hor with ⟨rfl, rfl⟩ | ⟨c, hc, hv⟩
        · exact Or.inr ⟨child, by simp, rfl⟩
        · exact Or.inr ⟨c, by simp [hc], hv⟩
      · intro p hp
        rcases List.mem_cons.mp hp with rfl | hp
        · simp only
          omega
        · exact hall p hp

/-- The most-visited-child scan of a nonempty children list returns the move
of a child whose visit count dominates every child. -/
theorem best_visits_key_spec (l : List (Move × Node Pos Move V)) (hl : l ≠ []) :
    ∃ m c, best_visits_key l = some m ∧ (m, c) ∈ l ∧
      ∀ p ∈ l, p.2.visits ≤ c.visits := by
  cases l with
  | nil => exact absurd rfl hl
  | cons q rest =>
    obtain ⟨mv, child⟩ := q
    obtain ⟨m, v, heq, hv0, hor, hall⟩ := best_visits_fold_some rest mv child.visits
    have hkey : best_visits_key ((mv, child) :: rest) = some m := by
      simp [best_visits_key, best_visits_fold, heq]
    rcases hor with ⟨rfl, rfl⟩ | ⟨c, hc, hv⟩
    · refine ⟨m, child, hkey, by simp, ?_⟩
      intro p hp
      rcases List.mem_cons.mp hp with rfl | hp
      · exact le_rfl
      · exact hall p hp
    · refine ⟨m, c, hkey, by simp [hc], ?_⟩
      intro p hp
      rw [hv]
      rcases List.mem_cons.mp hp with rfl | hp
      · simp only
        omega
      · exact hall p hp

theorem best_visits_key_ne_none (l : List (Move × Node Pos Move V)) (hl : l ≠ []) :
    best_visits_key l ≠ none := by
  obtain ⟨m, c, hkey, _, _⟩ := best_visits_key_spec l hl
  rw [hkey]
  exact Option.some_ne_none m

/-- The observable behaviour of a random playout, written as the corrected
case split of spec §4.3: checkmate or stalemate yields its score only when
observed at the start of an iteration with budget remaining; an exhausted
budget yields 0 regardless of the final position's status; an ongoing
position with no legal moves (impossible under a lawful rules engine) exits
with 0; otherwise one legal move is played and the playout continues with
one less unit of budget, keeping the same result (computed against the side
to move at the start of the whole playout). -/
inductive Playout (G : GameRules Pos Move) (F : FloatOps V) (start_side : Color) :
    Pos → Nat → V → Prop where
  | exhausted (b : Pos) : Playout G F start_side b 0 F.zero
  | mate_win (b : Pos) (d : Nat) : G.status b = BoardStatus.Checkmate →
      (G.side_to_move b).invert = start_side →
      Playout G F start_side b (d + 1) F.one
  | mate_loss (b : Pos) (d : Nat) : G.status b = BoardStatus.Checkmate →
      (G.side_to_move b).invert ≠ start_side →
      Playout G F start_side b (d + 1) F.negOne
  | drawn (b : Pos) (d : Nat) : G.status b = BoardStatus.Stalemate →
      Playout G F start_side b (d + 1) F.zero
  | no_moves (b : Pos) (d : Nat) : G.status b = BoardStatus.Ongoing →
      G.legal_moves b = [] → Playout G F start_side b (d + 1) F.zero
  | step (b : Pos) (d : Nat) (mv : Move) (res : V) : G.status b = BoardStatus.Ongoing →
      mv ∈ G.legal_moves b →
      Playout G F start_side (G.make_move_new b mv) d res →
      Playout G F start_side b (d + 1) res

theorem Playout.result_mem {G : GameRules Pos Move} {F : FloatOps V}
    {start_side : Color} {b : Pos} {d : Nat} {res : V}
    (h : Playout G F start_side b d res) :
    res = F.one ∨ res = F.zero ∨ res = F.negOne := by
  induction h with
  | exhausted => exact Or.inr (Or.inl rfl)
  | mate_win => exact Or.inl rfl
  | mate_loss => exact Or.inr (Or.inr rfl)
  | drawn => exact Or.inr (Or.inl rfl)
  | no_moves => exact Or.inr (Or.inl rfl)
  | step _ _ _ _ _ _ _ ih => exact ih

theorem simulate_go_playout (G : GameRules Pos Move) (F : FloatOps V)
    (start_side : Color) :
    ∀ (d : Nat) (b : Pos) (rng : Rng),
    Playout G F start_side b d (simulate_go G F start_side b d rng).1 := by
  intro d
  induction d with
  | zero => intro b rng; exact Playout.exhausted b
  | succ d ih =>
    intro b rng
    cases hs : G.status b with
    | Ongoing =>
      cases hm : G.legal_moves b with
      | nil =>
        simp only [simulate_go, hs, hm]
        exact Playout.no_moves b d hs hm
      | cons m ms =>
        simp only [simulate_go, hs, hm]
        refine Playout.step b d _ _ hs ?_ (ih _ _)
        rw [hm]
        exact List.get_mem _ _ _
    | Checkmate =>
      simp only [simulate_go, hs]
      by_cases hw : (G.side_to_move b).invert = start_side
      · simp only [hw, if_true]
        exact Playout.mate_win b d hs hw
      · simp only [hw, if_false]
        exact Playout.mate_loss b d hs hw
    | Stalemate =>
      simp only [simulate_go, hs]
      exact Playout.drawn b d hs

theorem Node.new_visits (G : GameRules Pos Move) (F : FloatOps V) (p : Pos) :
    (Node.new G F p : Node Pos Move V).visits = 0 := rfl

theorem Node.new_board (G : GameRules Pos Move) (F : FloatOps V) (p : Pos) :
    (Node.new G F p : Node Pos Move V).board = p := rfl

theorem run_search_board [DecidableEq Move] [LinearOrder V]
    (G : GameRules Pos Move) (F : FloatOps V) (k : Nat) :
    ∀ (n : Node Pos Move V) (rng : Rng),
    (run_search G F k n rng).1.board = n.board := by
  induction k with
  | zero => intro n rng; rfl
  | succ k ih =>
    intro n rng
    show (run_search G F k (search_iteration G F n rng).1 _).1.board = _
    rw [ih, (search_iteration_path G F n rng).board_eq]

theorem treeInv_mem_legal {G : GameRules Pos Move} {n : Node Pos Move V}
    (hInv : TreeInv G n) {m : Move} {c : Node Pos Move V}
    (hmc : (m, c) ∈ n.children) : m ∈ G.legal_moves n.board := by
  cases hInv with
  | intro b v vs ch un t h1 h2 h3 h4 h5 h6 h7 =>
    simp only [Node.children_mk] at hmc
    simp only [Node.board_mk]
    exact (h3 m).mp (Or.inr (List.mem_map.mpr ⟨(m, c), hmc, rfl⟩))

theorem run_search_succ [DecidableEq Move] [LinearOrder V]
    (G : GameRules Pos Move) (F : FloatOps V) (k : Nat) (n : Node Pos Move V)
    (rng : Rng) :
    run_search G F (k + 1) n rng =
      run_search G F k (search_iteration G F n rng).1 (search_iteration G F n rng).2.2 := rfl

end Engine

section Claims

variable {Pos Move V : Type}

/-- C2: for every rules adapter, every configuration (simulation count and
random tape) and every input position, `choose_move` returns no move if and
only if the position has no legal moves. -/
theorem choose_move_none_iff_no_legal [DecidableEq Move] [LinearOrder V]
    (G : GameRules Pos Move) (F : FloatOps V) (config : MctsConfig) (p : Pos)
    (rng : Rng) :
    choose_move G F config p rng = none ↔ G.legal_moves p = [] := by
  constructor
  · intro h
    by_contra hne
    have hie : (G.legal_moves p).isEmpty = false := List.isEmpty_eq_false.mpr hne
    simp only [choose_move, hie, Bool.false_eq_true, if_false] at h
    split at h
    · exact hne (List.head?_eq_none_iff.mp h)
    · split at h
      · exact hne (List.head?_eq_none_iff.mp h)
      · rename_i hch
        have hchne : (run_search G F (max config.simulations 1) (Node.new G F p) rng).1.children ≠ [] := by
          intro hc
          rw [hc] at hch
          exact hch rfl
        exact best_visits_key_ne_none _ hchne h
  · intro h
    simp [choose_move, h]

/-- C3: for every rules adapter, every configured simulation count
(including 0) and every random tape, a position with exactly one legal move
makes `choose_move` return that move immediately: the result is this fixed
move independently of the simulation budget and of the random source,
because the single-move short-circuit precedes the search loop. -/
theorem choose_move_single_legal [DecidableEq Move] [LinearOrder V]
    (G : GameRules Pos Move) (F : FloatOps V) (config : MctsConfig) (p : Pos)
    (rng : Rng) (m : Move) (h : G.legal_moves p = [m]) :
    choose_move G F config p rng = some m := by
  simp [choose_move, h]

/-- C1: for every lawful rules adapter, every configuration (simulation
count and random tape) and every position with at least two legal moves,
`choose_move` returns some move; that move is legal in the input position
and keys an immediate child of the searched root whose visit count is at
least that of every other immediate root child (robust-child selection). -/
theorem choose_move_robust_child [DecidableEq Move] [LinearOrder V]
    (G : GameRules Pos Move) (F : FloatOps V) (config : MctsConfig) (p : Pos)
    (rng : Rng) (hL : LawfulGameRules G) (h2 : 2 ≤ (G.legal_moves p).length) :
    ∃ m c, choose_move G F config p rng = some m ∧ m ∈ G.legal_moves p ∧
      (m, c) ∈ (run_search G F (max config.simulations 1) (Node.new G F p) rng).1.children ∧
      ∀ q ∈ (run_search G F (max config.simulations 1) (Node.new G F p) rng).1.children,
        q.2.visits ≤ c.visits := by
  have hne : G.legal_moves p ≠ [] := by
    intro hc
    rw [hc] at h2
    simp at h2
  have hie : (G.legal_moves p).isEmpty = false := List.isEmpty_eq_false.mpr hne
  have hlen : ¬(G.legal_moves p).length = 1 := by omega
  have hOngoing : G.status p = BoardStatus.Ongoing := hL.ongoing_of_moves p hne
  have hroot : (Node.new G F p : Node Pos Move V) =
      Node.mk p 0 F.zero [] (G.legal_moves p) false := Node.new_ongoing G F p hOngoing
  obtain ⟨k, hk⟩ : ∃ k, max config.simulations 1 = k + 1 :=
    ⟨max config.simulations 1 - 1, by omega⟩
  have hchne : (run_search G F (max config.simulations 1)
      (Node.new G F p : Node Pos Move V) rng).1.children ≠ [] := by
    rw [hk, run_search_succ]
    refine run_search_children_ne_nil G F k _ _ ?_
    refine search_iteration_expands G F _ _ ?_ ?_
    · rw [hroot]
      rfl
    · rw [hroot]
      simpa using hne
  obtain ⟨m, c, hkey, hmem, hmax⟩ := best_visits_key_spec _ hchne
  have hInv : TreeInv G (run_search G F (max config.simulations 1)
      (Node.new G F p : Node Pos Move V) rng).1 :=
    run_search_treeInv hL _ _ _ (treeInv_new F hL p)
  have hlegal : m ∈ G.legal_moves p := by
    have := treeInv_mem_legal hInv hmem
    rwa [run_search_board, Node.new_board] at this
  refine ⟨m, c, ?_, hlegal, hmem, hmax⟩
  have hch : (run_search G F (max config.simulations 1)
      (Node.new G F p : Node Pos Move V) rng).1.children.isEmpty = false :=
    List.isEmpty_eq_false.mpr hchne
  simp only [choose_move, hie, Bool.false_eq_true, if_false, hlen, hch]
  exact hkey

/-- C4 (amended): for every search actually run (at least two legal moves
at the root), every configuration and every random tape, the loop executes
exactly `max(simulations, 1)` iterations, each of which puts the root on
its selection path exactly once, so the root's wrapping `u32` visit counter
finishes at `max(simulations, 1) mod 2^32`; in particular it equals
`max(simulations, 1)` exactly whenever `max(simulations, 1) < 2^32`. -/
theorem run_search_root_visits [DecidableEq Move] [LinearOrder V]
    (G : GameRules Pos Move) (F : FloatOps V) (config : MctsConfig) (p : Pos)
    (rng : Rng) (h2 : 2 ≤ (G.legal_moves p).length) :
    (run_search G F (max config.simulations 1)
      (Node.new G F p : Node Pos Move V) rng).1.visits =
        max config.simulations 1 % u32_mod ∧
    (max config.simulations 1 < u32_mod →
      (run_search G F (max config.simulations 1)
        (Node.new G F p : Node Pos Move V) rng).1.visits = max config.simulations 1) := by
  have hmain : (run_search G F (max config.simulations 1)
      (Node.new G F p : Node Pos Move V) rng).1.visits =
        max config.simulations 1 % u32_mod := by
    rw [run_search_visits G F _ _ _ (by rw [Node.new_visits]; exact u32_mod_pos),
      Node.new_visits, Nat.zero_add]
  exact ⟨hmain, fun hlt => by rw [hmain, Nat.mod_eq_of_lt hlt]⟩

/-- C6: every iteration of the search loop updates the tree along exactly
one root-to-tip selection path: each node on the path gains exactly one
visit and the iteration's playout result is added, with the same sign at
every ply, to its value sum; no node off the path is modified (siblings,
boards, terminal flags and unexpanded lists other than the tip's popped
move are untouched), as expressed by the `PathUpdate` relation. -/
theorem search_iteration_backprop [DecidableEq Move] [LinearOrder V]
    (G : GameRules Pos Move) (F : FloatOps V) (node : Node Pos Move V) (rng : Rng) :
    PathUpdate G F (search_iteration G F node rng).2.1 node
      (search_iteration G F node rng).1 :=
  search_iteration_path G F node rng

/-- C8: under a lawful rules adapter the partition invariant holds for every
node of the search tree at every point of a search: it is established by
node construction, preserved by every iteration of the loop, and therefore
holds after any number of iterations; `TreeInv` states that the unexpanded
moves and the children's keys are disjoint, together exhaust the node's
legal-move set, and that a terminal node has no unexpanded moves and no
children (recursively in every subtree). -/
theorem tree_partition_invariant [DecidableEq Move] [LinearOrder V]
    (G : GameRules Pos Move) (F : FloatOps V) (hL : LawfulGameRules G) :
    (∀ p : Pos, TreeInv G (Node.new G F p : Node Pos Move V)) ∧
    (∀ (n : Node Pos Move V) (rng : Rng), TreeInv G n →
      TreeInv G (search_iteration G F n rng).1) ∧
    (∀ (p : Pos) (k : Nat) (rng : Rng),
      TreeInv G (run_search G F k (Node.new G F p : Node Pos Move V) rng).1) :=
  ⟨fun p => treeInv_new F hL p,
   fun n rng h => treeInv_path hL (search_iteration_path G F n rng) h,
   fun p k rng => run_search_treeInv hL k _ rng (treeInv_new F hL p)⟩

/-- C9 (amended): at every point of every search comprising fewer than
`2^32` iterations — so that no `u32` visit counter has wrapped — every node
of the tree has a visit count at least the sum of its children's visit
counts, because every iteration that visits a child also visits its parent
on the same selection path; once the iteration count reaches `2^32` the
root's wrapped counter falls below its children's sum. -/
theorem visit_sum_invariant [DecidableEq Move] [LinearOrder V]
    (G : GameRules Pos Move) (F : FloatOps V) :
    ∀ (p : Pos) (k : Nat) (rng : Rng), k < u32_mod →
      VisitInv (run_search G F k (Node.new G F p : Node Pos Move V) rng).1 :=
  fun p k rng hk =>
    (run_search_visitInvLe k 0 _ rng (visitInvLe_new G F p) (by omega)).visitInv

/-- C5 (amended): for every rules adapter, every starting position, every
depth budget and every random tape, the random playout returns one of
exactly the three scores +1, 0, −1, and the returned score follows the
corrected case analysis `Playout`: checkmate observed with budget remaining
scores +1 when the playout's starting side delivered mate and −1 when the
starting side is the mated side, stalemate observed with budget remaining
scores 0, and an exhausted budget scores 0 regardless of the final
position's status (in particular a mate delivered by the last budgeted move
is scored 0, not ±1). -/
theorem simulate_result_cases [DecidableEq Move] [LinearOrder V]
    (G : GameRules Pos Move) (F : FloatOps V) (b : Pos) (d : Nat) (rng : Rng) :
    ((simulate_random_default G F b d rng).1 = F.one ∨
     (simulate_random_default G F b d rng).1 = F.zero ∨
     (simulate_random_default G F b d rng).1 = F.negOne) ∧
    Playout G F (G.side_to_move b) b d (simulate_random_default G F b d rng).1 :=
  ⟨(simulate_go_playout G F (G.side_to_move b) d b rng).result_mem,
   simulate_go_playout G F (G.side_to_move b) d b rng⟩

end Claims

section RealModel

variable {Pos Move : Type}

/-- The extended-real reading of the `f32` operations used by
`Node::uct_value`: `f32::INFINITY` is `⊤`, `f32::NEG_INFINITY` is `⊥`,
`SQRT_2` is `√2`, and `ln`, `sqrt` and division act on the (always finite)
real values that the UCT computation feeds them, so they are read back from
`EReal.toReal`. -/
noncomputable def realFloatOps : FloatOps EReal where
  zero := 0
  one := 1
  negOne := -1
  inf := ⊤
  neg_inf := ⊥
  sqrt2 := ((Real.sqrt 2 : ℝ) : EReal)
  add := fun a b => a + b
  mul := fun a b => a * b
  div := fun a b => ((a.toReal / b.toReal : ℝ) : EReal)
  ln := fun a => ((Real.log a.toReal : ℝ) : EReal)
  sqrt := fun a => ((Real.sqrt a.toReal : ℝ) : EReal)
  ofNat := fun n => ((n : ℝ) : EReal)

/-- C7: in the extended-real model of `f32`, a node's selection score is
positive infinity exactly in the unvisited case, and a visited node's score
under the parent-visit argument used by the selection phase (the parent's
visit count floored at 1, as in `node.visits.max(1)`) equals
`valueSum / visitCount + sqrt 2 * sqrt (ln (max parentVisits 1) / visitCount)`,
that is, mean value plus the UCT exploration term with constant `C = √2`. -/
theorem uct_value_formula (n parent : Node Pos Move EReal) (s : ℝ)
    (hs : n.value_sum = (s : EReal)) :
    (n.visits = 0 → ∀ pv : EReal, n.uct_value realFloatOps pv = ⊤) ∧
    (n.visits ≠ 0 →
      n.uct_value realFloatOps (selection_parent_visits realFloatOps parent) =
        ((s / n.visits +
          Real.sqrt 2 * Real.sqrt (Real.log (max parent.visits 1 : ℕ) / n.visits) : ℝ) :
          EReal)) := by
  constructor
  · intro h0 pv
    simp [Node.uct_value, h0, realFloatOps]
  · intro hne
    simp only [Node.uct_value, if_neg hne, selection_parent_visits, realFloatOps, hs,
      EReal.toReal_coe]
    rw [← EReal.coe_mul, ← EReal.coe_add]

end RealModel

section UciParsing

/-- Embedding of `chess::File`. -/
inductive File where
  | A | B | C | D | E | F | G | H
  deriving DecidableEq, Repr

/-- Embedding of `chess::Rank`. -/
inductive Rank where
  | First | Second | Third | Fourth | Fifth | Sixth | Seventh | Eighth
  deriving DecidableEq, Repr

/-- Embedding of `chess::Piece`. -/
inductive Piece where
  | Pawn | Knight | Bishop | Rook | Queen | King
  deriving DecidableEq, Repr

/-- Embedding of `chess::Square` built by `Square::make_square(rank, file)`. -/
structure Square where
  rank : Rank
  file : File
  deriving DecidableEq, Repr

/-- Embedding of `Square::make_square`. -/
def Square.make_square (r : Rank) (f : File) : Square := ⟨r, f⟩

/-- Embedding of `chess::ChessMove`. -/
structure ChessMove where
  source : Square
  dest : Square
  promotion : Option Piece
  deriving DecidableEq, Repr

/-- Embedding of `ChessMove::new`. -/
def ChessMove.new (source dest : Square) (promotion : Option Piece) : ChessMove :=
  ⟨source, dest, promotion⟩

/-- A Rust `&str` is modelled as its list of characters; `str::len` is the
UTF-8 byte length. -/
def utf8Len (s : List Char) : Nat := (s.map Char.utf8Size).sum

/-- Byte slicing `&s[0..k]`: split the string at byte index `k`.  Returns
`none` when `k` is past the end of the string or falls strictly inside the
UTF-8 encoding of a character — exactly the two conditions under which the
Rust slice expression panics. -/
def split_at_byte : Nat → List Char → Option (List Char × List Char)
  | 0, s => some ([], s)
  | _ + 1, [] => none
  | k + 1, c :: cs =>
    if c.utf8Size ≤ k + 1 then
      match split_at_byte (k + 1 - c.utf8Size) cs with
      | none => none
      | some p => some (c :: p.1, p.2)
    else none

/-- Embedding of `char::to_ascii_lowercase`. -/
def to_ascii_lowercase (c : Char) : Char :=
  if 'A' ≤ c ∧ c ≤ 'Z' then Char.ofNat (c.toNat + 32) else c

namespace GameState

/-- Embedding of `GameState::uci_file` (`src/game/mod.rs` lines 100-112). -/
def uci_file (c : Char) : Option File :=
  match to_ascii_lowercase c with
  | 'a' => some File.A
  | 'b' => some File.B
  | 'c' => some File.C
  | 'd' => some File.D
  | 'e' => some File.E
  | 'f' => some File.F
  | 'g' => some File.G
  | 'h' => some File.H
  | _ => none

/-- Embedding of `GameState::uci_rank` (`src/game/mod.rs` lines 114-126). -/
def uci_rank (c : Char) : Option Rank :=
  match c with
  | '1' => some Rank.First
  | '2' => some Rank.Second
  | '3' => some Rank.Third
  | '4' => some Rank.Fourth
  | '5' => some Rank.Fifth
  | '6' => some Rank.Sixth
  | '7' => some Rank.Seventh
  | '8' => some Rank.Eighth
  | _ => none

/-- Embedding of `GameState::uci_promo_piece` (`src/game/mod.rs` lines 128-136). -/
def uci_promo_piece (c : Char) : Option Piece :=
  match to_ascii_lowercase c with
  | 'q' => some Piece.Queen
  | 'r' => some Piece.Rook
  | 'b' => some Piece.Bishop
  | 'n' => some Piece.Knight
  | _ => none

/-- Embedding of `GameState::uci_square` (`src/game/mod.rs` lines 92-98): reject a slice
whose byte length is not 2, then read a file and a rank character. -/
def uci_square (s : List Char) : Option Square :=
  if utf8Len s ≠ 2 then none
  else
    match s with
    | [] => none
    | c1 :: rest =>
      match uci_file c1 with
      | none => none
      | some f =>
        match rest with
        | [] => none
        | c2 :: _ =>
          match uci_rank c2 with
          | none => none
          | some r => some (Square.make_square r f)

/-- Embedding of `GameState::parse_uci_move` (`src/game/mod.rs` lines 82-90).  The two
byte slices `&mv[0..2]` and `&mv[2..4]` are taken before any square parsing;
either slice panics (`RunResult.halted`) when its end index falls inside a
multi-byte character.  `mv.chars().nth(4)` is the fifth character; its
absence short-circuits the whole function to `None` via `?`. -/
def parse_uci_move (mv : List Char) : RunResult (Option ChessMove) :=
  if utf8Len mv < 4 then RunResult.value none
  else
    match split_at_byte 2 mv with
    | none => RunResult.halted
    | some fr =>
      match split_at_byte 2 fr.2 with
      | none => RunResult.halted
      | some tr =>
        RunResult.value
          (match uci_square fr.1 with
           | none => none
           | some from_sq =>
             match uci_square tr.1 with
             | none => none
             | some to_sq =>
               if utf8Len mv = 5 then
                 match (mv.drop 4).head? with
                 | none => none
                 | some c => some (ChessMove.new from_sq to_sq (uci_promo_piece c))
               else some (ChessMove.new from_sq to_sq none))

end GameState

theorem split_at_byte_ascii :
    ∀ (s : List Char), (∀ c ∈ s, c.utf8Size = 1) →
    ∀ k, k ≤ s.length → split_at_byte k s = some (s.take k, s.drop k) := by
  intro s
  induction s with
  | nil =>
    intro _ k hk
    have : k = 0 := Nat.le_zero.mp hk
    subst this
    rfl
  | cons c cs ih =>
    intro hall k hk
    cases k with
    | zero => rfl
    | succ k =>
      have hc : c.utf8Size = 1 := hall c (by simp)
      have hrec := ih (fun c' hc' => hall c' (by simp [hc'])) k (by simpa using hk)
      simp only [split_at_byte, hc, Nat.add_sub_cancel, hrec]
      simp

theorem utf8Len_ascii {s : List Char} (hall : ∀ c ∈ s, c.utf8Size = 1) :
    utf8Len s = s.length := by
  induction s with
  | nil => rfl
  | cons c cs ih =>
    have hc : c.utf8Size = 1 := hall c (by simp)
    have := ih (fun c' hc' => hall c' (by simp [hc']))
    simp only [utf8Len, List.map_cons, List.sum_cons, List.length_cons, hc] at *
    omega

/-- C10 (amended): on every input whose characters are single-byte (in
particular every ASCII string, of any length), `parse_uci_move` evaluates
totally to a value — `none` for malformed input — and never panics; the
amendment excludes inputs of byte length at least 4 whose byte index 2 or 4
splits a multi-byte character, on which the slicing panics. -/
theorem parse_uci_move_total_on_ascii :
    ∀ (s : List Char), (∀ c ∈ s, c.utf8Size = 1) →
    ∃ r, GameState.parse_uci_move s = RunResult.value r := by
  intro s hall
  by_cases h4 : utf8Len s < 4
  · exact ⟨none, by simp [GameState.parse_uci_move, h4]⟩
  · have hlen : utf8Len s = s.length := utf8Len_ascii hall
    have h1 : split_at_byte 2 s = some (s.take 2, s.drop 2) :=
      split_at_byte_ascii s hall 2 (by omega)
    have hall2 : ∀ c ∈ s.drop 2, c.utf8Size = 1 :=
      fun c hc => hall c (List.drop_subset _ _ hc)
    have h2 : split_at_byte 2 (s.drop 2) = some ((s.drop 2).take 2, (s.drop 2).drop 2) :=
      split_at_byte_ascii _ hall2 2 (by rw [List.length_drop]; omega)
    cases hp : GameState.parse_uci_move s with
    | value r => exact ⟨r, rfl⟩
    | halted =>
      exfalso
      simp only [GameState.parse_uci_move, h4, if_false, h1, h2] at hp
      exact RunResult.noConfusion hp

section ToyGame

/-- A three-position test game used to instantiate the engine theorems on
concrete inputs: position 0 is ongoing with two legal moves, position 1 is
ongoing with one legal move leading to position 2, and position 2 is a
checkmate (Black to move, so White delivered mate) with no legal moves. -/
def toyG : GameRules (Fin 3) Bool where
  legal_moves := fun p => if p = 0 then [false, true] else if p = 1 then [false] else []
  make_move_new := fun p _ => if p = 0 then 1 else 2
  side_to_move := fun p => if p = 2 then Color.Black else Color.White
  status := fun p => if p = 2 then BoardStatus.Checkmate else BoardStatus.Ongoing

/-- A computable integer instantiation of the `f32` operations, used to
evaluate the engine on concrete inputs (the search-tree theorems hold for
every instantiation). -/
def intFloatOps : FloatOps Int where
  zero := 0
  one := 1
  negOne := -1
  inf := 2 ^ 31
  neg_inf := -(2 ^ 31)
  sqrt2 := 1
  add := fun a b => a + b
  mul := fun a b => a * b
  div := fun a b => a / b
  ln := fun a => a
  sqrt := fun a => a
  ofNat := fun n => (n : Int)

/-- A two-position game used for the wrap-around counterexamples:
position 0 is ongoing with two legal moves, both leading to position 1, a
stalemate.  Every playout from position 1 scores 0, so the search tree
stabilizes to a root with two stalemate leaves whose shape is provable for
every iteration count. -/
def toyW : GameRules (Fin 2) Bool where
  legal_moves := fun p => if p = 0 then [false, true] else []
  make_move_new := fun _ _ => 1
  side_to_move := fun _ => Color.White
  status := fun p => if p = 0 then BoardStatus.Ongoing else BoardStatus.Stalemate

/-- The stalemate leaf of the `toyW` search tree after `n` touches. -/
def stale_node (n : Nat) : Node (Fin 2) Bool Int :=
  Node.mk 1 (n % u32_mod) 0 [] [] true

/-- The `toyW` search tree after `k` iterations, `k ≥ 2`, where the two
leaves have been touched `n1` and `n2` times (`n1 + n2 = k`). -/
def twoRoot (k n1 n2 : Nat) : Node (Fin 2) Bool Int :=
  Node.mk 0 (k % u32_mod) 0
    [(true, stale_node n1), (false, stale_node n2)] [] false

theorem simulate_stale_96 (rng : Rng) :
    simulate_random_default toyW intFloatOps 1 96 rng = (0, rng) := by
  show simulate_go toyW intFloatOps (toyW.side_to_move 1) 1 96 rng = (0, rng)
  rw [show (96 : Nat) = 95 + 1 from rfl]
  simp [simulate_go, toyW, intFloatOps]

theorem search_iteration_stale (n : Nat) (rng : Rng) :
    search_iteration toyW intFloatOps (stale_node n) rng =
      (Node.mk 1 ((n + 1) % u32_mod) 0 [] [] true, 0, rng) := by
  rw [search_iteration.eq_def]
  simp only [stale_node, Node.is_terminal_mk, Node.board_mk, if_true,
    simulate_stale_96, Node.record_mk, Nat.mod_add_mod]
  simp [intFloatOps]

theorem uct_stale_lb (n : Nat) (pv : Int) (hpv : 0 ≤ pv) :
    intFloatOps.neg_inf < (stale_node n).uct_value intFloatOps pv := by
  by_cases h : n % u32_mod = 0
  · simp only [Node.uct_value, stale_node, Node.visits_mk, h, if_true]
    show -(2 ^ 31 : Int) < 2 ^ 31
    norm_num
  · simp only [Node.uct_value, stale_node, Node.visits_mk, Node.value_sum_mk, h,
      if_false]
    show -(2 ^ 31 : Int) <
      intFloatOps.add (intFloatOps.div 0 (intFloatOps.ofNat (n % u32_mod)))
        (intFloatOps.mul intFloatOps.sqrt2
          (intFloatOps.sqrt (intFloatOps.div (intFloatOps.ln pv)
            (intFloatOps.ofNat (n % u32_mod)))))
    show -(2 ^ 31 : Int) <
      0 / ((n % u32_mod : Nat) : Int) + 1 * (pv / ((n % u32_mod : Nat) : Int))
    rw [Int.zero_ediv, one_mul, zero_add]
    have : (0 : Int) ≤ pv / ((n % u32_mod : Nat) : Int) :=
      Int.ediv_nonneg hpv (Int.natCast_nonneg _)
    omega

theorem best_uct_key_twoRoot (k n1 n2 : Nat) :
    best_uct_key intFloatOps
        (selection_parent_visits intFloatOps (twoRoot k n1 n2))
        (twoRoot k n1 n2).children = some true ∨
    best_uct_key intFloatOps
        (selection_parent_visits intFloatOps (twoRoot k n1 n2))
        (twoRoot k n1 n2).children = some false := by
  have hpv : (0 : Int) ≤ selection_parent_visits intFloatOps
      (Node.mk 0 (k % u32_mod) 0
        [(true, stale_node n1), (false, stale_node n2)] [] false :
        Node (Fin 2) Bool Int) := by
    show (0 : Int) ≤ ((max (k % u32_mod) 1 : Nat) : Int)
    exact Int.natCast_nonneg _
  have hu1 := uct_stale_lb n1 _ hpv
  simp only [twoRoot, Node.children_mk, best_uct_key, best_uct_fold]
  rw [if_pos hu1]
  by_cases h2 : (stale_node n1).uct_value intFloatOps
      (selection_parent_visits intFloatOps
        (Node.mk 0 (k % u32_mod) 0
          [(true, stale_node n1), (false, stale_node n2)] [] false)) <
      (stale_node n2).uct_value intFloatOps
        (selection_parent_visits intFloatOps
          (Node.mk 0 (k % u32_mod) 0
            [(true, stale_node n1), (false, stale_node n2)] [] false))
  · rw [if_pos h2]
    exact Or.inr rfl
  · rw [if_neg h2]
    exact Or.inl rfl

theorem search_iteration_twoRoot (k n1 n2 : Nat) (rng : Rng) :
    search_iteration toyW intFloatOps (twoRoot k n1 n2) rng =
        (twoRoot (k + 1) (n1 + 1) n2, 0, rng) ∨
    search_iteration toyW intFloatOps (twoRoot k n1 n2) rng =
        (twoRoot (k + 1) n1 (n2 + 1), 0, rng) := by
  rcases best_uct_key_twoRoot k n1 n2 with hbk | hbk
  · left
    rw [search_iteration.eq_def]
    simp only [twoRoot, Node.is_terminal_mk, Node.unexpanded_moves_mk,
      Node.children_mk, Node.board_mk] at hbk ⊢
    rw [hbk]
    simp only [List.isEmpty_cons, List.isEmpty_nil, Bool.not_false, Bool.true_and,
      Bool.false_eq_true, if_false, if_true]
    have hfind : find_child [(true, stale_node n1), (false, stale_node n2)] true =
        some (true, stale_node n1) := rfl
    split
    · rename_i mc heq
      rw [hfind] at heq
      obtain rfl := Option.some_inj.mp heq
      rw [search_iteration_stale n1 rng]
      simp [replace_child, twoRoot, stale_node, intFloatOps, Nat.mod_add_mod]
    · rename_i heq
      rw [hfind] at heq
      exact Option.noConfusion heq
  · right
    rw [search_iteration.eq_def]
    simp only [twoRoot, Node.is_terminal_mk, Node.unexpanded_moves_mk,
      Node.children_mk, Node.board_mk] at hbk ⊢
    rw [hbk]
    simp only [List.isEmpty_cons, List.isEmpty_nil, Bool.not_false, Bool.true_and,
      Bool.false_eq_true, if_false, if_true]
    have hfind : find_child [(true, stale_node n1), (false, stale_node n2)] false =
        some (false, stale_node n2) := rfl
    split
    · rename_i mc heq
      rw [hfind] at heq
      obtain rfl := Option.some_inj.mp heq
      rw [search_iteration_stale n2 rng]
      simp [replace_child, twoRoot, stale_node, intFloatOps, Nat.mod_add_mod]
    · rename_i heq
      rw [hfind] at heq
      exact Option.noConfusion heq

theorem run_search_add {Pos Move V : Type} [DecidableEq Move] [LinearOrder V]
    (G : GameRules Pos Move) (F : FloatOps V) (a b : Nat) :
    ∀ (n : Node Pos Move V) (rng : Rng),
    run_search G F (a + b) n rng =
      run_search G F b (run_search G F a n rng).1 (run_search G F a n rng).2 := by
  induction a with
  | zero =>
    intro n rng
    rw [Nat.zero_add]
    rfl
  | succ a ih =>
    intro n rng
    have harith : a + 1 + b = (a + b) + 1 := by omega
    rw [harith]
    show run_search G F (a + b) (search_iteration G F n rng).1
        (search_iteration G F n rng).2.2 = _
    rw [ih]
    rfl

/-- The `toyW` search tree after any number of further iterations from a
`twoRoot` state: the root gains one visit per iteration and each iteration
touches exactly one of the two leaves. -/
theorem run_search_twoRoot (j : Nat) :
    ∀ (k n1 n2 : Nat) (rng : Rng), ∃ d1 d2, d1 + d2 = j ∧
      run_search toyW intFloatOps j (twoRoot k n1 n2) rng =
        (twoRoot (k + j) (n1 + d1) (n2 + d2), rng) := by
  induction j with
  | zero =>
    intro k n1 n2 rng
    exact ⟨0, 0, rfl, by simp [run_search]⟩
  | succ j ih =>
    intro k n1 n2 rng
    rcases search_iteration_twoRoot k n1 n2 rng with hit | hit
    · obtain ⟨d1, d2, hd, hrun⟩ := ih (k + 1) (n1 + 1) n2 rng
      refine ⟨d1 + 1, d2, by omega, ?_⟩
      show run_search toyW intFloatOps j
          (search_iteration toyW intFloatOps (twoRoot k n1 n2) rng).1
          (search_iteration toyW intFloatOps (twoRoot k n1 n2) rng).2.2 = _
      rw [hit]
      show run_search toyW intFloatOps j (twoRoot (k + 1) (n1 + 1) n2) rng = _
      rw [hrun]
      have h1 : k + 1 + j = k + (j + 1) := by omega
      have h2 : n1 + 1 + d1 = n1 + (d1 + 1) := by omega
      rw [h1, h2]
    · obtain ⟨d1, d2, hd, hrun⟩ := ih (k + 1) n1 (n2 + 1) rng
      refine ⟨d1, d2 + 1, by omega, ?_⟩
      show run_search toyW intFloatOps j
          (search_iteration toyW intFloatOps (twoRoot k n1 n2) rng).1
          (search_iteration toyW intFloatOps (twoRoot k n1 n2) rng).2.2 = _
      rw [hit]
      show run_search toyW intFloatOps j (twoRoot (k + 1) n1 (n2 + 1)) rng = _
      rw [hrun]
      have h1 : k + 1 + j = k + (j + 1) := by omega
      have h2 : n2 + 1 + d2 = n2 + (d2 + 1) := by omega
      rw [h1, h2]

theorem search_iteration_toyW_first (rng : Rng) :
    search_iteration toyW intFloatOps (Node.new toyW intFloatOps 0) rng =
      (Node.mk 0 (1 % u32_mod) 0 [(true, stale_node 1)] [false] false, 0, rng) := by
  have hroot : (Node.new toyW intFloatOps 0 : Node (Fin 2) Bool Int) =
      Node.mk 0 0 0 [] [false, true] false := by
    rw [Node.new_ongoing toyW intFloatOps 0 (by decide)]
    simp [toyW, intFloatOps]
  rw [hroot, search_iteration.eq_def]
  simp only [Node.is_terminal_mk, Node.unexpanded_moves_mk, Node.children_mk,
    Node.board_mk, List.isEmpty_cons, List.isEmpty_nil, Bool.false_and,
    Bool.false_eq_true, if_false]
  have hpop : vec_pop [false, true] = some (true, [false]) := rfl
  rw [hpop]
  have hchild : (Node.new toyW intFloatOps (toyW.make_move_new 0 true) :
      Node (Fin 2) Bool Int) = Node.mk 1 0 0 [] [] true := by
    rw [show toyW.make_move_new 0 true = 1 from rfl,
      Node.new_terminal toyW intFloatOps 1 (by decide)]
    simp [intFloatOps]
  simp only [hchild, Node.board_mk, simulate_stale_96, Node.with_unexpanded_mk,
    Node.with_children_mk, Node.record_mk, List.nil_append]
  simp [stale_node, intFloatOps]

theorem search_iteration_toyW_second (rng : Rng) :
    search_iteration toyW intFloatOps
        (Node.mk 0 (1 % u32_mod) 0 [(true, stale_node 1)] [false] false) rng =
      (twoRoot 2 1 1, 0, rng) := by
  rw [search_iteration.eq_def]
  simp only [Node.is_terminal_mk, Node.unexpanded_moves_mk, Node.children_mk,
    Node.board_mk, List.isEmpty_cons, List.isEmpty_nil, Bool.false_and,
    Bool.false_eq_true, if_false]
  have hpop : vec_pop [false] = some (false, ([] : List Bool)) := rfl
  rw [hpop]
  have hchild : (Node.new toyW intFloatOps (toyW.make_move_new 0 false) :
      Node (Fin 2) Bool Int) = Node.mk 1 0 0 [] [] true := by
    rw [show toyW.make_move_new 0 false = 1 from rfl,
      Node.new_terminal toyW intFloatOps 1 (by decide)]
    simp [intFloatOps]
  simp only [hchild, Node.board_mk, simulate_stale_96, Node.with_unexpanded_mk,
    Node.with_children_mk, Node.record_mk, Nat.mod_add_mod]
  simp [twoRoot, stale_node, intFloatOps]

theorem run_search_toyW_two (rng : Rng) :
    run_search toyW intFloatOps 2 (Node.new toyW intFloatOps 0) rng =
      (twoRoot 2 1 1, rng) := by
  show run_search toyW intFloatOps 1
      (search_iteration toyW intFloatOps (Node.new toyW intFloatOps 0) rng).1
      (search_iteration toyW intFloatOps (Node.new toyW intFloatOps 0) rng).2.2 = _
  rw [search_iteration_toyW_first rng]
  show run_search toyW intFloatOps 0
      (search_iteration toyW intFloatOps
        (Node.mk 0 (1 % u32_mod) 0 [(true, stale_node 1)] [false] false) rng).1
      (search_iteration toyW intFloatOps
        (Node.mk 0 (1 % u32_mod) 0 [(true, stale_node 1)] [false] false) rng).2.2 = _
  rw [search_iteration_toyW_second rng]
  rfl

/-- After exactly `2 ^ 32` iterations over `toyW`, the tree is a `twoRoot`
whose two leaves have been touched `n1` and `n2` times with
`n1 + n2 = 2 ^ 32` and both at least once. -/
theorem run_search_toyW_shape :
    ∃ n1 n2, 1 ≤ n1 ∧ 1 ≤ n2 ∧ n1 + n2 = 2 ^ 32 ∧
      (run_search toyW intFloatOps (2 ^ 32)
        (Node.new toyW intFloatOps 0) ([] : Rng)).1 = twoRoot (2 ^ 32) n1 n2 := by
  have hsplit : (2 ^ 32 : Nat) = 2 + (2 ^ 32 - 2) := by norm_num
  obtain ⟨d1, d2, hd, hrun⟩ := run_search_twoRoot (2 ^ 32 - 2) 2 1 1 ([] : Rng)
  refine ⟨1 + d1, 1 + d2, by omega, by omega, by omega, ?_⟩
  rw [hsplit, run_search_add, run_search_toyW_two]
  show (run_search toyW intFloatOps (2 ^ 32 - 2) (twoRoot 2 1 1) ([] : Rng)).1 = _
  rw [hrun]

end ToyGame

section Counterexamples

/-- C5 counterexample: a playout from position 1 with depth budget 1 plays
the single legal move and reaches position 2, a checkmate in which the side
to move at the start of the playout (White) is not the mated side — the
claim's case analysis demands a return of +1 — yet the simulator returns 0,
because the budget is exhausted before the loop inspects the mated
position. -/
theorem simulate_mate_on_last_ply_scores_zero :
    toyG.legal_moves 1 = [false] ∧
    toyG.status (toyG.make_move_new 1 false) = BoardStatus.Checkmate ∧
    (toyG.side_to_move (toyG.make_move_new 1 false)).invert = toyG.side_to_move 1 ∧
    (simulate_random_default toyG intFloatOps 1 1 ([] : Rng)).1 = intFloatOps.zero ∧
    intFloatOps.zero ≠ intFloatOps.one := by
  refine ⟨by decide, by decide, by decide, ?_, by decide⟩
  decide

/-- C10 counterexample: the four-byte string obtained as the euro sign
(three bytes) followed by the letter a passes the length guard, and the
slice `&mv[0..2]` then splits the euro sign's encoding, so the call panics
(`RunResult.halted`) instead of evaluating to a `some`/`none` value. -/
theorem parse_uci_move_panics_on_multibyte :
    utf8Len [Char.ofNat 8364, 'a'] = 4 ∧
    GameState.parse_uci_move [Char.ofNat 8364, 'a'] = RunResult.halted := by
  exact ⟨by decide, by decide⟩

/-- C4 counterexample: on a position with two legal moves and a configured
simulation count of `N = 2^32` (a representable `usize`), the search runs
`max(N, 1) = 2^32` iterations and the root's wrapping `u32` visit counter
finishes at 0, which differs from `max(N, 1)` — the claimed exact equality
fails. -/
theorem run_search_root_visits_wrap_counterexample :
    2 ≤ (toyG.legal_moves 0).length ∧
    (run_search toyG intFloatOps (max (2 ^ 32 : Nat) 1)
      (Node.new toyG intFloatOps 0) ([] : Rng)).1.visits = 0 ∧
    (0 : Nat) ≠ max (2 ^ 32 : Nat) 1 := by
  refine ⟨by decide, ?_, by norm_num⟩
  rw [run_search_visits toyG intFloatOps _ _ _
      (by rw [Node.new_visits]; exact u32_mod_pos), Node.new_visits, Nat.zero_add]
  norm_num [u32_mod]

/-- C9 counterexample: on a position with two legal moves, after exactly
`2^32` iterations (a point of any search configured with at least that many
simulations) the root's wrapping `u32` visit counter reads 0 while its two
children's visit counts sum to `2^32`, so the node-dominates-children-sum
invariant fails at the root. -/
theorem visit_sum_invariant_wrap_counterexample :
    2 ≤ (toyW.legal_moves 0).length ∧
    ¬ VisitInv (run_search toyW intFloatOps (2 ^ 32)
        (Node.new toyW intFloatOps 0) ([] : Rng)).1 := by
  refine ⟨by decide, ?_⟩
  obtain ⟨n1, n2, h1, h2, hsum, hshape⟩ := run_search_toyW_shape
  rw [hshape]
  intro hv
  have hW : u32_mod = 4294967296 := by norm_num [u32_mod]
  have hpow : (2 : Nat) ^ 32 = 4294967296 := by norm_num
  simp only [twoRoot, stale_node] at hv
  cases hv with
  | intro _ _ _ _ _ _ hle _ =>
    simp only [List.map_cons, List.map_nil, List.sum_cons, List.sum_nil,
      Node.visits_mk] at hle
    rw [Nat.mod_eq_of_lt (by omega : n1 < u32_mod),
      Nat.mod_eq_of_lt (by omega : n2 < u32_mod)] at hle
    rw [hpow, hW, Nat.mod_self] at hle
    omega

end Counterexamples

section Witnesses

theorem choose_move_robust_child_witness :
    ∃ m c, choose_move toyG intFloatOps ⟨2⟩ 0 ([] : Rng) = some m ∧
      m ∈ toyG.legal_moves 0 ∧
      (m, c) ∈ (run_search toyG intFloatOps (max (2 : Nat) 1)
        (Node.new toyG intFloatOps 0) ([] : Rng)).1.children ∧
      ∀ q ∈ (run_search toyG intFloatOps (max (2 : Nat) 1)
        (Node.new toyG intFloatOps 0) ([] : Rng)).1.children,
        q.2.visits ≤ c.visits :=
  choose_move_robust_child toyG intFloatOps ⟨2⟩ 0 []
    ⟨by decide, by decide, by decide⟩ (by decide)

theorem choose_move_single_legal_witness :
    choose_move toyG intFloatOps ⟨0⟩ 1 ([] : Rng) = some false :=
  choose_move_single_legal toyG intFloatOps ⟨0⟩ 1 [] false (by decide)

theorem run_search_root_visits_witness :
    (run_search toyG intFloatOps (max (5 : Nat) 1)
      (Node.new toyG intFloatOps 0) ([] : Rng)).1.visits = max (5 : Nat) 1 % u32_mod ∧
    (max (5 : Nat) 1 < u32_mod →
      (run_search toyG intFloatOps (max (5 : Nat) 1)
        (Node.new toyG intFloatOps 0) ([] : Rng)).1.visits = max (5 : Nat) 1) :=
  run_search_root_visits toyG intFloatOps ⟨5⟩ 0 [] (by decide)

theorem uct_value_formula_witness :
    (Node.mk 0 2 ((1 : ℝ) : EReal) [] [] false : Node Nat Nat EReal).uct_value realFloatOps
        (selection_parent_visits realFloatOps
          (Node.mk 0 5 (0 : EReal) [] [] false : Node Nat Nat EReal)) =
      (((1 : ℝ) / ((2 : Nat) : ℝ) +
        Real.sqrt 2 * Real.sqrt (Real.log ((max (5 : Nat) 1 : ℕ) : ℝ) / ((2 : Nat) : ℝ)) : ℝ) :
        EReal) :=
  (uct_value_formula (Node.mk 0 2 ((1 : ℝ) : EReal) [] [] false)
    (Node.mk 0 5 (0 : EReal) [] [] false) 1 rfl).2 (by decide)

theorem visit_sum_invariant_witness :
    VisitInv (run_search toyG intFloatOps 3
      (Node.new toyG intFloatOps 0) ([] : Rng)).1 :=
  visit_sum_invariant toyG intFloatOps 0 3 [] (by norm_num [u32_mod])

theorem tree_partition_invariant_witness :
    TreeInv toyG (run_search toyG intFloatOps 3
      (Node.new toyG intFloatOps 0) ([] : Rng)).1 :=
  (tree_partition_invariant toyG intFloatOps ⟨by decide, by decide, by decide⟩).2.2 0 3 []

theorem parse_uci_move_total_on_ascii_witness :
    ∃ r, GameState.parse_uci_move ['e', '2', 'e', '4'] = RunResult.value r :=
  parse_uci_move_total_on_ascii ['e', '2', 'e', '4'] (by decide)

end Witnesses

end UciParsing

end MctsChess
